import Mathlib

/-
  Verification of the n-queens solver in src/n_queens.py.

  The solver keeps an n x n integer grid `board` where `board[a][c]` is the
  number of currently placed queens whose row, column or diagonal passes
  through the cell `(a, c)` (the code counts a queen once at its own cell, see
  `propagate`).  `add_queen` is a recursive backtracking search that places one
  queen per column, in a per-call randomly shuffled row order, pruning any cell
  whose threat count is nonzero.

  The embedding below is functional: the NumPy array becomes a total function
  `Nat → Nat → Int`, in-place mutation becomes explicit state passing (each
  call returns the result together with the board it leaves behind), and the
  per-call `random.shuffle` becomes a `Shuffler` parameter giving the row order
  used at each partial placement.  Python's unbounded recursion is realised
  with an explicit fuel argument; fuel `n + 1` is enough for every reachable
  call, and fuel-independence above the required depth is proved below.
-/

namespace NQueens

/-- The chessboard threat-count grid: `b a c` is the value of `board[a, c]`. -/
def Board := Nat → Nat → Int

/-- Embeds `make_board`: `np.zeros((n, n))`, the all-zero grid. -/
def make_board (n : Nat) : Board := fun _ _ => (0 : Int)

/-- One element update `board[i, j] += d`. -/
def bump (b : Board) (i j : Nat) (d : Int) : Board :=
  fun a c => if a = i ∧ c = j then b a c + d else b a c

/-- Embeds `board[x, :] += d`: add `d` to every cell of row `x` (columns `< n`). -/
def addRow (n : Nat) (b : Board) (x : Nat) (d : Int) : Board :=
  fun a c => if a = x ∧ c < n then b a c + d else b a c

/-- Embeds `board[:, y] += d`: add `d` to every cell of column `y` (rows `< n`). -/
def addCol (n : Nat) (b : Board) (y : Nat) (d : Int) : Board :=
  fun a c => if c = y ∧ a < n then b a c + d else b a c

/-- Embeds `board[x, y] -= d`. -/
def subCell (b : Board) (x y : Nat) (d : Int) : Board :=
  fun a c => if a = x ∧ c = y then b a c - d else b a c

/-- Embeds the first `while` loop of `propagate`: starting from
`(x - 1, y - 1)` walk up-left adding `d` while both coordinates stay `≥ 0`. -/
def upLeft : Board → Nat → Nat → Int → Board
  | b, x + 1, y + 1, d => upLeft (bump b x y d) x y d
  | b, _, _, _ => b

/-- Embeds the second `while` loop of `propagate`: starting from
`(x + 1, y - 1)` walk down-left adding `d` while `x2 < n` and `y2 ≥ 0`. -/
def downLeft (n : Nat) : Board → Nat → Nat → Int → Board
  | b, _, 0, _ => b
  | b, x, y + 1, d =>
    if x + 1 < n then downLeft n (bump b (x + 1) y d) (x + 1) y d else b

/-- Embeds the third `while` loop of `propagate`: starting from
`(x - 1, y + 1)` walk up-right adding `d` while `x3 ≥ 0` and `y3 < n`. -/
def upRight (n : Nat) : Board → Nat → Nat → Int → Board
  | b, 0, _, _ => b
  | b, x + 1, y, d =>
    if y + 1 < n then upRight n (bump b x (y + 1) d) x (y + 1) d else b

/-- Fuel-indexed form of the fourth `while` loop of `propagate` (the fuel
`n - x` passed by `downRight` dominates the number of iterations, which is
bounded by `n - 1 - x`, so the guard, not the fuel, ends the loop). -/
def downRightAux : Nat → Board → Nat → Nat → Nat → Int → Board
  | 0, b, _, _, _, _ => b
  | k + 1, b, n, x, y, d =>
    if x + 1 < n ∧ y + 1 < n then
      downRightAux k (bump b (x + 1) (y + 1) d) n (x + 1) (y + 1) d
    else b

/-- Embeds the fourth `while` loop of `propagate`: starting from
`(x + 1, y + 1)` walk down-right adding `d` while both stay `< n`. -/
def downRight (n : Nat) (b : Board) (x y : Nat) (d : Int) : Board :=
  downRightAux (n - x) b n x y d

/-- Embeds `propagate(n, board, x, y, d)` from the source: add `d` to the row
and column through `(x, y)` (both including `(x, y)`, so `(x, y)` itself first
receives `2 * d`), subtract `d` once at `(x, y)`, then add `d` along the four
diagonal rays emanating from `(x, y)`, each bounded by the grid edges. -/
def propagate (n : Nat) (board : Board) (x y : Nat) (d : Int) : Board :=
  downRight n
    (upRight n
      (downLeft n
        (upLeft (subCell (addCol n (addRow n board x d) y d) x y d) x y d)
        x y d)
      x y d)
    x y d

/-- The per-call row order source: `shuffler queens` models the result of
`random.shuffle(list(range(n)))` performed by the `add_queen` call whose
partial placement is `queens` (each partial placement is visited at most once
per solve, so a seeded PRNG determines such a family). -/
def Shuffler : Type := List Nat → List Nat

/-- Embeds the `for y in row_order` loop of `add_queen`: try each row in
order, skipping threatened cells; on an unthreatened cell commit with
`propagate +1`, recurse (through `recur`), undo with `propagate -1`, and
short-circuit when the recursion found a solution.  The board is threaded
explicitly because the source mutates it in place. -/
def tryRows (n x : Nat) (recur : Nat → Board → Option (List Nat) × Board) :
    List Nat → Board → Option (List Nat) × Board
  | [], board => (none, board)
  | y :: ys, board =>
    if board x y ≠ 0 then tryRows n x recur ys board
    else
      let p := recur y (propagate n board x y 1)
      let b3 := propagate n p.2 x y (-1)
      match p.1 with
      | some sol => (some sol, b3)
      | none => tryRows n x recur ys b3

/-- Embeds `add_queen(n, queens, board)`.  The extra `fuel` argument makes the
recursion structural; fuel `n + 1 - queens.length` suffices and the result is
independent of any larger fuel (proved below), which is the termination
argument for the Python recursion.  Returns the source's return value paired
with the board state left behind by the call. -/
def add_queen (n : Nat) (rng : Shuffler) :
    Nat → List Nat → Board → Option (List Nat) × Board
  | 0, _, board => (none, board)
  | fuel + 1, queens, board =>
    if queens.length = n then (some queens, board)
    else
      tryRows n queens.length
        (fun y b => add_queen n rng fuel (queens ++ [y]) b)
        (rng queens) board

/-- Embeds `solve(n)`: run `add_queen` from the empty placement on a zero
board, returning only the placement (the source discards the board). -/
def solve (n : Nat) (rng : Shuffler) : Option (List Nat) :=
  (add_queen n rng (n + 1) [] (make_board n)).1

/-- The set of cells whose value `propagate n _ x y d` changes (each by
exactly `d`): the row and column through `(x, y)` — including `(x, y)` itself,
which the code leaves with a net change of `d` — and the four diagonal rays
from `(x, y)` clipped to the grid.  One disjunct per update of the code, in
source order. -/
def touched (n x y a c : Nat) : Prop :=
  (a = x ∧ c < n) ∨ (c = y ∧ a < n) ∨
    (a < x ∧ c < y ∧ a + y = c + x) ∨ (x < a ∧ a < n ∧ a + c = x + y) ∨
    (a < x ∧ c < n ∧ a + c = x + y) ∨ (x < a ∧ a < n ∧ c < n ∧ a + y = c + x)

instance touchedDecidable (n x y a c : Nat) : Decidable (touched n x y a c) := by
  unfold touched
  infer_instance

/-- The exact change `propagate n _ x y d` makes at cell `(a, c)`: one
summand per vectorised update and per loop of the code. -/
def attackDelta (n x y a c : Nat) (d : Int) : Int :=
  (if a = x ∧ c < n then d else 0) + (if c = y ∧ a < n then d else 0)
    - (if a = x ∧ c = y then d else 0)
    + (if a < x ∧ c < y ∧ a + y = c + x then d else 0)
    + (if x < a ∧ a < n ∧ a + c = x + y then d else 0)
    + (if a < x ∧ c < n ∧ a + c = x + y then d else 0)
    + (if x < a ∧ a < n ∧ c < n ∧ a + y = c + x then d else 0)

/-- The board determined by a placement: cell `(a, c)` counts the queens
`(i, qs[i])` (column `i` starting at `i0`, row `qs[i]`) that touch it.  The
search maintains `board = threatBoard n queens 0`. -/
def threatBoard (n : Nat) : List Nat → Nat → Board
  | [], _ => fun _ _ => (0 : Int)
  | q :: qs, i => fun a c =>
    (if touched n i q a c then (1 : Int) else 0) + threatBoard n qs (i + 1) a c

/-- Queens at `(i, qi)` and `(j, qj)` share no row and no diagonal.  Over the
integers this is `qi ≠ qj ∧ |qi - qj| ≠ |i - j|`. -/
def NoAttack (i qi j qj : Nat) : Prop :=
  qi ≠ qj ∧ qi + i ≠ qj + j ∧ qi + j ≠ qj + i

/-- Invariant of every partial placement the search constructs: at most `n`
queens, rows in range, and pairwise mutually non-attacking. -/
def Consistent (n : Nat) (qs : List Nat) : Prop :=
  qs.length ≤ n ∧ (∀ q ∈ qs, q < n) ∧
    ∀ i j, i < j → j < qs.length → NoAttack i (qs.getD i 0) j (qs.getD j 0)

/-- A full valid n-queens configuration: `n` queens, rows in range, pairwise
mutually non-attacking. -/
def StrongValid (n : Nat) (qs : List Nat) : Prop :=
  qs.length = n ∧ (∀ q ∈ qs, q < n) ∧
    ∀ i j, i < j → j < qs.length → NoAttack i (qs.getD i 0) j (qs.getD j 0)

/-- Executable check for `StrongValid`, used to certify concrete solutions. -/
def validCheck (n : Nat) (qs : List Nat) : Bool :=
  (qs.length == n) && qs.all (fun q => q < n) &&
    (List.range qs.length).all (fun j => (List.range j).all (fun i =>
      (qs.getD i 0 != qs.getD j 0) &&
        (qs.getD i 0 + i != qs.getD j 0 + j) &&
        (qs.getD i 0 + j != qs.getD j 0 + i)))

/-- Apply `propagate +1` for each coordinate pair in `ops`, first to last. -/
def applyAll (n : Nat) (ops : List (Nat × Nat)) (b : Board) : Board :=
  match ops with
  | [] => b
  | p :: rest => applyAll n rest (propagate n b p.1 p.2 1)

/-- Apply `propagate -1` for each coordinate pair in `ops`, last to first. -/
def undoAll (n : Nat) (ops : List (Nat × Nat)) (b : Board) : Board :=
  match ops with
  | [] => b
  | p :: rest => propagate n (undoAll n rest b) p.1 p.2 (-1)

/-- The spec's single user-facing validation error (section 7 of the spec). -/
inductive SolveError where
  | invalidInput
deriving DecidableEq

/-- Embeds the size boundary of `make_board`: `np.zeros((n, n))` raises
`ValueError` (negative dimensions are not allowed) for `n < 0` — NumPy's
documented contract for the source line — and otherwise builds the zero
grid. -/
def make_board_checked (n : Int) : Except SolveError Board :=
  if n < 0 then Except.error SolveError.invalidInput
  else Except.ok (make_board n.toNat)

/-- Embeds `solve` at the integer boundary: building the board precedes the
search, so a negative `n` is rejected before `add_queen` ever runs. -/
def solve_checked (n : Int) (rng : Shuffler) : Except SolveError (Option (List Nat)) :=
  match make_board_checked n with
  | Except.error e => Except.error e
  | Except.ok board => Except.ok (add_queen n.toNat rng (n.toNat + 1) [] board).1

theorem bump_apply (b : Board) (i j : Nat) (d : Int) (a c : Nat) :
    bump b i j d a c = b a c + (if a = i ∧ c = j then d else 0) := by
  simp only [bump]
  split_ifs <;> ring

theorem addRow_apply (n : Nat) (b : Board) (x : Nat) (d : Int) (a c : Nat) :
    addRow n b x d a c = b a c + (if a = x ∧ c < n then d else 0) := by
  simp only [addRow]
  split_ifs <;> ring

theorem addCol_apply (n : Nat) (b : Board) (y : Nat) (d : Int) (a c : Nat) :
    addCol n b y d a c = b a c + (if c = y ∧ a < n then d else 0) := by
  simp only [addCol]
  split_ifs <;> ring

theorem subCell_apply (b : Board) (x y : Nat) (d : Int) (a c : Nat) :
    subCell b x y d a c = b a c - (if a = x ∧ c = y then d else 0) := by
  simp only [subCell]
  split_ifs <;> ring

theorem upLeft_apply : ∀ (x y : Nat) (b : Board) (d : Int) (a c : Nat),
    upLeft b x y d a c = b a c + (if a < x ∧ c < y ∧ a + y = c + x then d else 0) := by
  intro x
  induction x with
  | zero =>
    intro y b d a c
    show b a c = b a c + (if a < 0 ∧ c < y ∧ a + y = c + 0 then d else 0)
    split_ifs <;> first | ring1 | (exfalso; omega)
  | succ x ih =>
    intro y b d a c
    cases y with
    | zero =>
      show b a c = b a c + (if a < x + 1 ∧ c < 0 ∧ a + 0 = c + (x + 1) then d else 0)
      split_ifs <;> first | ring1 | (exfalso; omega)
    | succ y =>
      show upLeft (bump b x y d) x y d a c = _
      rw [ih y (bump b x y d) d a c, bump_apply]
      split_ifs <;> first | ring1 | (exfalso; omega)

theorem downLeft_apply (n : Nat) : ∀ (y x : Nat) (b : Board) (d : Int) (a c : Nat),
    downLeft n b x y d a c
      = b a c + (if x < a ∧ a < n ∧ a + c = x + y then d else 0) := by
  intro y
  induction y with
  | zero =>
    intro x b d a c
    show b a c = b a c + (if x < a ∧ a < n ∧ a + c = x + 0 then d else 0)
    split_ifs <;> first | ring1 | (exfalso; omega)
  | succ y ih =>
    intro x b d a c
    show (if x + 1 < n then downLeft n (bump b (x + 1) y d) (x + 1) y d else b) a c = _
    by_cases hx : x + 1 < n
    · rw [if_pos hx, ih (x + 1) (bump b (x + 1) y d) d a c, bump_apply]
      split_ifs <;> first | ring1 | (exfalso; omega)
    · rw [if_neg hx]
      split_ifs <;> first | ring1 | (exfalso; omega)

theorem upRight_apply (n : Nat) : ∀ (x y : Nat) (b : Board) (d : Int) (a c : Nat),
    upRight n b x y d a c
      = b a c + (if a < x ∧ c < n ∧ a + c = x + y then d else 0) := by
  intro x
  induction x with
  | zero =>
    intro y b d a c
    show b a c = b a c + (if a < 0 ∧ c < n ∧ a + c = 0 + y then d else 0)
    split_ifs <;> first | ring1 | (exfalso; omega)
  | succ x ih =>
    intro y b d a c
    show (if y + 1 < n then upRight n (bump b x (y + 1) d) x (y + 1) d else b) a c = _
    by_cases hy : y + 1 < n
    · rw [if_pos hy, ih (y + 1) (bump b x (y + 1) d) d a c, bump_apply]
      split_ifs <;> first | ring1 | (exfalso; omega)
    · rw [if_neg hy]
      split_ifs <;> first | ring1 | (exfalso; omega)

theorem downRightAux_apply :
    ∀ (k n : Nat) (b : Board) (x y : Nat) (d : Int) (a c : Nat), n - x ≤ k →
      downRightAux k b n x y d a c
        = b a c + (if x < a ∧ a < n ∧ c < n ∧ a + y = c + x then d else 0) := by
  intro k
  induction k with
  | zero =>
    intro n b x y d a c hk
    show b a c = _
    split_ifs <;> first | ring1 | (exfalso; omega)
  | succ k ih =>
    intro n b x y d a c hk
    show (if x + 1 < n ∧ y + 1 < n then
        downRightAux k (bump b (x + 1) (y + 1) d) n (x + 1) (y + 1) d else b) a c = _
    by_cases hdr : x + 1 < n ∧ y + 1 < n
    · rw [if_pos hdr, ih n (bump b (x + 1) (y + 1) d) (x + 1) (y + 1) d a c (by omega), bump_apply]
      split_ifs <;> first | ring1 | (exfalso; omega)
    · rw [if_neg hdr]
      split_ifs <;> first | ring1 | (exfalso; omega)

theorem downRight_apply (n : Nat) (b : Board) (x y : Nat) (d : Int) (a c : Nat) :
    downRight n b x y d a c
      = b a c + (if x < a ∧ a < n ∧ c < n ∧ a + y = c + x then d else 0) :=
  downRightAux_apply (n - x) n b x y d a c (Nat.le_refl _)

/-- Pointwise description of `propagate`: every cell changes by exactly
`attackDelta`, at every cell of the plane (out-of-grid cells change by 0). -/
theorem propagate_apply (n : Nat) (b : Board) (x y : Nat) (d : Int) (a c : Nat) :
    propagate n b x y d a c = b a c + attackDelta n x y a c d := by
  unfold propagate attackDelta
  rw [downRight_apply, upRight_apply, downLeft_apply, upLeft_apply, subCell_apply,
    addCol_apply, addRow_apply]
  ring

theorem attackDelta_neg (n x y a c : Nat) (d : Int) :
    attackDelta n x y a c (-d) = -attackDelta n x y a c d := by
  unfold attackDelta
  split_ifs <;> ring

/-- Opposite-delta propagations at the same coordinates cancel exactly,
whatever the board and coordinates (the update is linear in `d`). -/
theorem propagate_propagate_neg (n : Nat) (b : Board) (x y : Nat) (d : Int) :
    propagate n (propagate n b x y d) x y (-d) = b := by
  funext a c
  rw [propagate_apply, propagate_apply, attackDelta_neg]
  ring

/-- For an in-range queen the change at each cell is `d` on the touched set
and `0` elsewhere. -/
theorem attackDelta_touched (n x y a c : Nat) (d : Int) (hx : x < n) (hy : y < n) :
    attackDelta n x y a c d = if touched n x y a c then d else 0 := by
  unfold attackDelta touched
  split_ifs <;> first | ring1 | (exfalso; omega)

theorem threatBoard_nonneg (n : Nat) :
    ∀ (qs : List Nat) (i a c : Nat), 0 ≤ threatBoard n qs i a c := by
  intro qs
  induction qs with
  | nil =>
    intro i a c
    exact Int.le_refl 0
  | cons q rest ih =>
    intro i a c
    show (0 : Int) ≤ (if touched n i q a c then (1 : Int) else 0) + threatBoard n rest (i + 1) a c
    have h := ih (i + 1) a c
    split_ifs <;> omega

theorem threatBoard_append (n : Nat) :
    ∀ (qs : List Nat) (y i a c : Nat),
      threatBoard n (qs ++ [y]) i a c
        = threatBoard n qs i a c
            + (if touched n (i + qs.length) y a c then (1 : Int) else 0) := by
  intro qs
  induction qs with
  | nil =>
    intro y i a c
    show (if touched n i y a c then (1 : Int) else 0) + 0 = 0 + _
    simp
  | cons q rest ih =>
    intro y i a c
    show (if touched n i q a c then (1 : Int) else 0) + threatBoard n (rest ++ [y]) (i + 1) a c
        = ((if touched n i q a c then (1 : Int) else 0) + threatBoard n rest (i + 1) a c) + _
    rw [ih y (i + 1) a c]
    have hidx : i + 1 + rest.length = i + (q :: rest).length := by
      simp
      omega
    rw [hidx]
    ring

theorem threatBoard_eq_zero (n : Nat) :
    ∀ (qs : List Nat) (i a c : Nat), threatBoard n qs i a c = 0 →
      ∀ j, j < qs.length → ¬ touched n (i + j) (qs.getD j 0) a c := by
  intro qs
  induction qs with
  | nil =>
    intro i a c _ j hj
    simp at hj
  | cons q rest ih =>
    intro i a c h j hj
    have h' : (if touched n i q a c then (1 : Int) else 0) + threatBoard n rest (i + 1) a c = 0 := h
    have hrest : 0 ≤ threatBoard n rest (i + 1) a c := threatBoard_nonneg n rest (i + 1) a c
    have hne : ¬ touched n i q a c := by
      intro ht
      rw [if_pos ht] at h'
      omega
    rw [if_neg hne] at h'
    cases j with
    | zero =>
      simpa using hne
    | succ j =>
      have hj' : j < rest.length := by
        simpa using hj
      have hz : threatBoard n rest (i + 1) a c = 0 := by omega
      have := ih (i + 1) a c hz j hj'
      have hidx : i + 1 + j = i + (j + 1) := by omega
      rw [hidx] at this
      simpa using this

theorem threatBoard_zero_of (n : Nat) :
    ∀ (qs : List Nat) (i a c : Nat),
      (∀ j, j < qs.length → ¬ touched n (i + j) (qs.getD j 0) a c) →
      threatBoard n qs i a c = 0 := by
  intro qs
  induction qs with
  | nil =>
    intro i a c _
    rfl
  | cons q rest ih =>
    intro i a c h
    show (if touched n i q a c then (1 : Int) else 0) + threatBoard n rest (i + 1) a c = 0
    have h0 : ¬ touched n i q a c := by
      have := h 0 (by simp)
      simpa using this
    have htail : threatBoard n rest (i + 1) a c = 0 := by
      apply ih (i + 1) a c
      intro j hj
      have := h (j + 1) (by simp; omega)
      have hidx : i + (j + 1) = i + 1 + j := by omega
      rw [hidx] at this
      simpa using this
    rw [if_neg h0, htail]
    ring

/-- Committing a new in-range queen at column `qs.length` turns the threat
board of `qs` into the threat board of `qs ++ [y]`: the board invariant of the
search. -/
theorem propagate_threatBoard (n : Nat) (qs : List Nat) (y : Nat)
    (hx : qs.length < n) (hy : y < n) :
    propagate n (threatBoard n qs 0) qs.length y 1 = threatBoard n (qs ++ [y]) 0 := by
  funext a c
  rw [propagate_apply, attackDelta_touched n qs.length y a c 1 hx hy, threatBoard_append]
  simp

theorem tryRows_nil (n x : Nat) (recur : Nat → Board → Option (List Nat) × Board)
    (board : Board) : tryRows n x recur [] board = (none, board) := rfl

theorem tryRows_cons (n x : Nat) (recur : Nat → Board → Option (List Nat) × Board)
    (y : Nat) (ys : List Nat) (board : Board) :
    tryRows n x recur (y :: ys) board
      = if board x y ≠ 0 then tryRows n x recur ys board
        else
          match (recur y (propagate n board x y 1)).1 with
          | some sol => (some sol, propagate n (recur y (propagate n board x y 1)).2 x y (-1))
          | none =>
            tryRows n x recur ys
              (propagate n (recur y (propagate n board x y 1)).2 x y (-1)) := rfl

theorem tryRows_cons_skip (n x : Nat) (recur : Nat → Board → Option (List Nat) × Board)
    (y : Nat) (ys : List Nat) (board : Board) (hb : board x y ≠ 0) :
    tryRows n x recur (y :: ys) board = tryRows n x recur ys board := by
  rw [tryRows_cons, if_pos hb]

theorem tryRows_cons_found (n x : Nat) (recur : Nat → Board → Option (List Nat) × Board)
    (y : Nat) (ys : List Nat) (board : Board) (sol : List Nat) (hb : board x y = 0)
    (hr : (recur y (propagate n board x y 1)).1 = some sol) :
    tryRows n x recur (y :: ys) board
      = (some sol, propagate n (recur y (propagate n board x y 1)).2 x y (-1)) := by
  rw [tryRows_cons, if_neg (by simp [hb]), hr]

theorem tryRows_cons_fail (n x : Nat) (recur : Nat → Board → Option (List Nat) × Board)
    (y : Nat) (ys : List Nat) (board : Board) (hb : board x y = 0)
    (hr : (recur y (propagate n board x y 1)).1 = none) :
    tryRows n x recur (y :: ys) board
      = tryRows n x recur ys
          (propagate n (recur y (propagate n board x y 1)).2 x y (-1)) := by
  rw [tryRows_cons, if_neg (by simp [hb]), hr]

theorem add_queen_zero (n : Nat) (rng : Shuffler) (queens : List Nat) (board : Board) :
    add_queen n rng 0 queens board = (none, board) := rfl

theorem add_queen_succ (n : Nat) (rng : Shuffler) (fuel : Nat) (queens : List Nat)
    (board : Board) :
    add_queen n rng (fuel + 1) queens board
      = if queens.length = n then (some queens, board)
        else
          tryRows n queens.length (fun y b => add_queen n rng fuel (queens ++ [y]) b)
            (rng queens) board := rfl

/-- The inner loop restores the board it was given, provided each recursive
call restores its own board. -/
theorem tryRows_snd (n x : Nat) (recur : Nat → Board → Option (List Nat) × Board)
    (hrec : ∀ y b, (recur y b).2 = b) :
    ∀ (rows : List Nat) (board : Board), (tryRows n x recur rows board).2 = board := by
  intro rows
  induction rows with
  | nil =>
    intro board
    rfl
  | cons y ys ih =>
    intro board
    by_cases hb : board x y = 0
    · have hb3 : propagate n (recur y (propagate n board x y 1)).2 x y (-1) = board := by
        rw [hrec y (propagate n board x y 1)]
        exact propagate_propagate_neg n board x y 1
      cases hr : (recur y (propagate n board x y 1)).1 with
      | some sol =>
        rw [tryRows_cons_found n x recur y ys board sol hb hr, hb3]
      | none =>
        rw [tryRows_cons_fail n x recur y ys board hb hr, hb3]
        exact ih board
    · rw [tryRows_cons_skip n x recur y ys board hb]
      exact ih board

/-- Every call to `add_queen` returns the board in the state it received it:
each `propagate +1` inside is undone by the matching `propagate -1`, on the
failing paths and on the path that returns a solution alike. -/
theorem add_queen_snd (n : Nat) (rng : Shuffler) :
    ∀ (fuel : Nat) (queens : List Nat) (board : Board),
      (add_queen n rng fuel queens board).2 = board := by
  intro fuel
  induction fuel with
  | zero =>
    intro queens board
    rfl
  | succ fuel ih =>
    intro queens board
    rw [add_queen_succ]
    by_cases hlen : queens.length = n
    · rw [if_pos hlen]
    · rw [if_neg hlen]
      exact tryRows_snd n queens.length _ (fun y b => ih (queens ++ [y]) b) (rng queens) board

/-- Appending a row whose grid cell is `0` preserves the search invariant:
the zero threat count means no placed queen shares its row or a diagonal. -/
theorem consistent_extend (n : Nat) (qs : List Nat) (y : Nat)
    (hq : Consistent n qs) (hlen : qs.length < n) (hy : y < n)
    (hsafe : threatBoard n qs 0 qs.length y = 0) :
    Consistent n (qs ++ [y]) := by
  obtain ⟨hle, hmem, hpair⟩ := hq
  refine ⟨by simp; omega, ?_, ?_⟩
  · intro q hqmem
    rcases List.mem_append.mp hqmem with h | h
    · exact hmem q h
    · simp at h
      omega
  · intro i j hij hj
    have hjlen : j < qs.length + 1 := by simpa using hj
    by_cases hjq : j < qs.length
    · have hi : i < qs.length := by omega
      rw [List.getD_append _ _ _ _ hi, List.getD_append _ _ _ _ hjq]
      exact hpair i j hij hjq
    · have hjeq : j = qs.length := by omega
      subst hjeq
      have hi : i < qs.length := by omega
      rw [List.getD_append _ _ _ _ hi]
      have hgety : (qs ++ [y]).getD qs.length 0 = y := by
        rw [List.getD_append_right _ _ _ _ (Nat.le_refl _)]
        simp
      rw [hgety]
      have hnt := threatBoard_eq_zero n qs 0 qs.length y hsafe i hi
      rw [Nat.zero_add] at hnt
      unfold touched at hnt
      unfold NoAttack
      omega

/-- Any solution produced by the row loop, started on the threat board of a
consistent placement with in-range candidate rows, is a valid full
configuration — provided recursive calls restore their board and return only
valid configurations. -/
theorem tryRows_sound (n : Nat) (recur : Nat → Board → Option (List Nat) × Board)
    (queens : List Nat) (hq : Consistent n queens) (hlen : queens.length < n)
    (hpres : ∀ y b, (recur y b).2 = b)
    (hrec : ∀ y, y < n → Consistent n (queens ++ [y]) →
      ∀ sol, (recur y (threatBoard n (queens ++ [y]) 0)).1 = some sol → StrongValid n sol) :
    ∀ (rows : List Nat), (∀ y ∈ rows, y < n) →
      ∀ sol, (tryRows n queens.length recur rows (threatBoard n queens 0)).1 = some sol →
        StrongValid n sol := by
  intro rows
  induction rows with
  | nil =>
    intro _ sol h
    simp [tryRows_nil] at h
  | cons y ys ih =>
    intro hmem sol h
    have hy : y < n := hmem y (by simp)
    by_cases hb : threatBoard n queens 0 queens.length y = 0
    · have hext : Consistent n (queens ++ [y]) := consistent_extend n queens y hq hlen hy hb
      have hboard : propagate n (threatBoard n queens 0) queens.length y 1
          = threatBoard n (queens ++ [y]) 0 := propagate_threatBoard n queens y hlen hy
      cases hr : (recur y (propagate n (threatBoard n queens 0) queens.length y 1)).1 with
      | some sol2 =>
        rw [tryRows_cons_found n queens.length recur y ys _ sol2 hb hr] at h
        simp at h
        subst h
        apply hrec y hy hext sol2
        rw [← hboard]
        exact hr
      | none =>
        rw [tryRows_cons_fail n queens.length recur y ys _ hb hr] at h
        have hrest : propagate n
            (recur y (propagate n (threatBoard n queens 0) queens.length y 1)).2
            queens.length y (-1) = threatBoard n queens 0 := by
          rw [hpres]
          exact propagate_propagate_neg n (threatBoard n queens 0) queens.length y 1
        rw [hrest] at h
        exact ih (fun z hz => hmem z (by simp [hz])) sol h
    · rw [tryRows_cons_skip n queens.length recur y ys _ hb] at h
      exact ih (fun z hz => hmem z (by simp [hz])) sol h

/-- Soundness of the search: started on the threat board of a consistent
placement, any returned placement is a full valid configuration.  The row
orders must be permutations of `range n`, which is what `random.shuffle`
produces. -/
theorem add_queen_sound (n : Nat) (rng : Shuffler)
    (hrng : ∀ qs, (rng qs).Perm (List.range n)) :
    ∀ (fuel : Nat) (queens : List Nat), Consistent n queens →
      ∀ sol, (add_queen n rng fuel queens (threatBoard n queens 0)).1 = some sol →
        StrongValid n sol := by
  intro fuel
  induction fuel with
  | zero =>
    intro queens _ sol h
    simp [add_queen_zero] at h
  | succ fuel ih =>
    intro queens hq sol h
    rw [add_queen_succ] at h
    by_cases hlen : queens.length = n
    · rw [if_pos hlen] at h
      simp at h
      subst h
      exact ⟨hlen, hq.2.1, hq.2.2⟩
    · rw [if_neg hlen] at h
      have hlt : queens.length < n := Nat.lt_of_le_of_ne hq.1 hlen
      refine tryRows_sound n _ queens hq hlt
        (fun y b => add_queen_snd n rng fuel (queens ++ [y]) b)
        (fun y _ hcons sol2 h2 => ih (queens ++ [y]) hcons sol2 h2)
        (rng queens) ?_ sol h
      intro y hy
      exact List.mem_range.mp ((hrng queens).mem_iff.mp hy)

/-- Any solution the loop returns is a solution some recursive call
returned. -/
theorem tryRows_result (n x : Nat) (recur : Nat → Board → Option (List Nat) × Board)
    (P : List Nat → Prop)
    (hrec : ∀ y b sol, (recur y b).1 = some sol → P sol) :
    ∀ (rows : List Nat) (board : Board) (sol : List Nat),
      (tryRows n x recur rows board).1 = some sol → P sol := by
  intro rows
  induction rows with
  | nil =>
    intro board sol h
    simp [tryRows_nil] at h
  | cons y ys ih =>
    intro board sol h
    by_cases hb : board x y = 0
    · cases hr : (recur y (propagate n board x y 1)).1 with
      | some sol2 =>
        rw [tryRows_cons_found n x recur y ys board sol2 hb hr] at h
        simp at h
        subst h
        exact hrec y _ sol2 hr
      | none =>
        rw [tryRows_cons_fail n x recur y ys board hb hr] at h
        exact ih _ sol h
    · rw [tryRows_cons_skip n x recur y ys board hb] at h
      exact ih _ sol h

/-- Every solution `add_queen` returns extends the received placement by a
fresh suffix (the code builds `queens + [y]`, it never shrinks a list), and
has length exactly `n`. -/
theorem add_queen_extends (n : Nat) (rng : Shuffler) :
    ∀ (fuel : Nat) (queens : List Nat) (board : Board) (sol : List Nat),
      (add_queen n rng fuel queens board).1 = some sol →
      (∃ rest, sol = queens ++ rest) ∧ sol.length = n := by
  intro fuel
  induction fuel with
  | zero =>
    intro queens board sol h
    simp [add_queen_zero] at h
  | succ fuel ih =>
    intro queens board sol h
    rw [add_queen_succ] at h
    by_cases hlen : queens.length = n
    · rw [if_pos hlen] at h
      simp at h
      subst h
      exact ⟨⟨[], by simp⟩, hlen⟩
    · rw [if_neg hlen] at h
      refine tryRows_result n queens.length _
        (fun s => (∃ rest, s = queens ++ rest) ∧ s.length = n) ?_ (rng queens) board sol h
      intro y b sol2 h2
      obtain ⟨⟨rest, hrest⟩, hlen2⟩ := ih (queens ++ [y]) b sol2 h2
      refine ⟨⟨y :: rest, ?_⟩, hlen2⟩
      rw [hrest]
      simp

/-- If the sought row is among the remaining candidates, its grid cell is
free, and its recursive call succeeds, then the loop returns a solution
(either through that row or through an earlier successful row). -/
theorem tryRows_isSome (n x : Nat) (recur : Nat → Board → Option (List Nat) × Board)
    (hpres : ∀ y b, (recur y b).2 = b) (board : Board) (ystar : Nat)
    (hb0 : board x ystar = 0)
    (hsucc : (recur ystar (propagate n board x ystar 1)).1.isSome) :
    ∀ rows : List Nat, ystar ∈ rows → (tryRows n x recur rows board).1.isSome := by
  intro rows
  induction rows with
  | nil =>
    intro h
    simp at h
  | cons y ys ih =>
    intro hmem
    by_cases hb : board x y = 0
    · cases hr : (recur y (propagate n board x y 1)).1 with
      | some sol2 =>
        rw [tryRows_cons_found n x recur y ys board sol2 hb hr]
        simp
      | none =>
        rw [tryRows_cons_fail n x recur y ys board hb hr]
        have hrest : propagate n (recur y (propagate n board x y 1)).2 x y (-1) = board := by
          rw [hpres]
          exact propagate_propagate_neg n board x y 1
        rw [hrest]
        apply ih
        rcases List.mem_cons.mp hmem with he | hm
        · exfalso
          rw [he] at hsucc
          rw [hr] at hsucc
          simp at hsucc
        · exact hm
    · rw [tryRows_cons_skip n x recur y ys board hb]
      apply ih
      rcases List.mem_cons.mp hmem with he | hm
      · exfalso
        rw [he] at hb0
        exact hb hb0
      · exact hm

/-- Completeness of the search: if some full valid configuration extends the
current placement, `add_queen` (run on that placement's threat board, with
enough fuel and shuffled row orders) returns a solution. -/
theorem add_queen_complete (n : Nat) (rng : Shuffler)
    (hrng : ∀ qs, (rng qs).Perm (List.range n)) (sol : List Nat)
    (hsol : StrongValid n sol) :
    ∀ (fuel : Nat) (queens : List Nat), n + 1 - queens.length ≤ fuel →
      (∃ rest, sol = queens ++ rest) →
      ((add_queen n rng fuel queens (threatBoard n queens 0)).1).isSome := by
  intro fuel
  induction fuel with
  | zero =>
    intro queens hfuel hext
    obtain ⟨rest, hrest⟩ := hext
    exfalso
    have hlle : queens.length ≤ sol.length := by
      rw [hrest]
      simp
    rw [hsol.1] at hlle
    omega
  | succ fuel ih =>
    intro queens hfuel hext
    obtain ⟨rest, hrest⟩ := hext
    rw [add_queen_succ]
    by_cases hlen : queens.length = n
    · rw [if_pos hlen]
      simp
    · rw [if_neg hlen]
      have hlle : queens.length ≤ sol.length := by
        rw [hrest]
        simp
      have hsoln : sol.length = n := hsol.1
      have hlt : queens.length < n := by omega
      cases rest with
      | nil =>
        exfalso
        have : sol.length = queens.length := by
          rw [hrest]
          simp
        omega
      | cons r rest2 =>
        have hgety : sol.getD queens.length 0 = r := by
          rw [hrest, List.getD_append_right _ _ _ _ (Nat.le_refl _)]
          simp
        have hyn : r < n := by
          refine hsol.2.1 r ?_
          rw [hrest]
          simp
        have hsafe : threatBoard n queens 0 queens.length r = 0 := by
          apply threatBoard_zero_of
          intro j hj
          rw [Nat.zero_add]
          have hq : sol.getD j 0 = queens.getD j 0 := by
            rw [hrest, List.getD_append _ _ _ _ hj]
          have hpair := hsol.2.2 j queens.length hj (by omega)
          rw [hgety, hq] at hpair
          unfold NoAttack at hpair
          unfold touched
          omega
        have hmem : r ∈ rng queens :=
          (hrng queens).mem_iff.mpr (List.mem_range.mpr hyn)
        apply tryRows_isSome n queens.length _
          (fun y b => add_queen_snd n rng fuel (queens ++ [y]) b)
          (threatBoard n queens 0) r hsafe ?_ (rng queens) hmem
        rw [propagate_threatBoard n queens r hlt hyn]
        apply ih (queens ++ [r])
        · simp
          omega
        · refine ⟨rest2, ?_⟩
          rw [hrest]
          simp

theorem validCheck_sound (n : Nat) (qs : List Nat) (h : validCheck n qs = true) :
    StrongValid n qs := by
  unfold validCheck at h
  simp only [Bool.and_eq_true, beq_iff_eq, List.all_eq_true, decide_eq_true_eq, bne_iff_ne,
    List.mem_range] at h
  obtain ⟨⟨hlen, hmem⟩, hpairs⟩ := h
  refine ⟨hlen, hmem, ?_⟩
  intro i j hij hj
  have hp := hpairs j hj i hij
  exact ⟨hp.1.1, hp.1.2, hp.2⟩

theorem tryRows_congr (n x : Nat) (recur1 recur2 : Nat → Board → Option (List Nat) × Board)
    (hrec : ∀ y b, recur1 y b = recur2 y b) :
    ∀ (rows : List Nat) (board : Board),
      tryRows n x recur1 rows board = tryRows n x recur2 rows board := by
  intro rows
  induction rows with
  | nil =>
    intro board
    rfl
  | cons y ys ih =>
    intro board
    rw [tryRows_cons, tryRows_cons, hrec y (propagate n board x y 1), ih board,
      ih (propagate n (recur2 y (propagate n board x y 1)).2 x y (-1))]

/-- The search result does not depend on the fuel once the fuel covers the
maximal remaining recursion depth `n + 1 - queens.length`: the Python
recursion terminates within that depth. -/
theorem add_queen_fuel_eq (n : Nat) (rng : Shuffler) :
    ∀ (fuel1 fuel2 : Nat) (queens : List Nat) (board : Board),
      queens.length ≤ n → n + 1 - queens.length ≤ fuel1 → n + 1 - queens.length ≤ fuel2 →
      add_queen n rng fuel1 queens board = add_queen n rng fuel2 queens board := by
  intro fuel1
  induction fuel1 with
  | zero =>
    intro fuel2 queens board hle h1 _
    exact absurd h1 (by omega)
  | succ fuel1 ih =>
    intro fuel2 queens board hle h1 h2
    cases fuel2 with
    | zero =>
      exact absurd h2 (by omega)
    | succ fuel2 =>
      rw [add_queen_succ, add_queen_succ]
      by_cases hlen : queens.length = n
      · simp only [if_pos hlen]
      · rw [if_neg hlen, if_neg hlen]
        apply tryRows_congr
        intro y b
        apply ih fuel2 (queens ++ [y]) b
        · simp
          omega
        · simp
          omega
        · simp
          omega

theorem no_two_queens (qs : List Nat) : ¬ StrongValid 2 qs := by
  rintro ⟨hlen, hmem, hpair⟩
  cases qs with
  | nil => simp at hlen
  | cons a t =>
    cases t with
    | nil => simp at hlen
    | cons b t2 =>
      cases t2 with
      | cons c t3 => simp at hlen
      | nil =>
        have ha : a < 2 := hmem a (by simp)
        have hb : b < 2 := hmem b (by simp)
        have hp := hpair 0 1 (by omega) (by simp)
        simp only [List.getD_cons_zero, List.getD_cons_succ] at hp
        unfold NoAttack at hp
        omega

theorem no_three_queens (qs : List Nat) : ¬ StrongValid 3 qs := by
  rintro ⟨hlen, hmem, hpair⟩
  cases qs with
  | nil => simp at hlen
  | cons a t =>
    cases t with
    | nil => simp at hlen
    | cons b t2 =>
      cases t2 with
      | nil => simp at hlen
      | cons c t3 =>
        cases t3 with
        | cons e t4 => simp at hlen
        | nil =>
          have ha : a < 3 := hmem a (by simp)
          have hb : b < 3 := hmem b (by simp)
          have hc : c < 3 := hmem c (by simp)
          have hp1 := hpair 0 1 (by omega) (by simp)
          have hp2 := hpair 0 2 (by omega) (by simp)
          have hp3 := hpair 1 2 (by omega) (by simp)
          simp only [List.getD_cons_zero, List.getD_cons_succ] at hp1 hp2 hp3
          unfold NoAttack at hp1 hp2 hp3
          omega

/-- Two absolute differences agree exactly when the corresponding sums agree
one way or the other; bridges the spec's `|qi-qj| ≠ |i-j|` form with the
`Nat` form used internally. -/
theorem abs_sub_eq_abs_sub_iff (p q u v : Nat) :
    |(p : Int) - q| = |(u : Int) - v| ↔ (p + v = q + u ∨ p + u = q + v) := by
  rw [abs_eq_abs]
  omega

theorem make_board_eq_threatBoard (n : Nat) : make_board n = threatBoard n [] 0 := rfl

theorem consistent_nil (n : Nat) : Consistent n [] := by
  refine ⟨by simp, by simp, ?_⟩
  intro i j _ hj
  simp at hj

/-- C1: for every `n` and every non-`none` result of `solve` (with the row
orders `random.shuffle` produces, i.e. permutations of `range n`), the
returned placement has length `n` and is a valid n-queens configuration: for
all column pairs `i ≠ j` the rows differ and the diagonals differ. -/
theorem solve_valid (n : Nat) (rng : Shuffler)
    (hrng : ∀ qs, (rng qs).Perm (List.range n)) (sol : List Nat)
    (hsol : solve n rng = some sol) :
    sol.length = n ∧ ∀ i j, i < n → j < n → i ≠ j →
      sol.getD i 0 ≠ sol.getD j 0 ∧
        |(sol.getD i 0 : Int) - sol.getD j 0| ≠ |(i : Int) - (j : Int)| := by
  have hs : StrongValid n sol := by
    apply add_queen_sound n rng hrng (n + 1) [] (consistent_nil n) sol
    rw [← make_board_eq_threatBoard]
    exact hsol
  obtain ⟨hlen, _, hpair⟩ := hs
  refine ⟨hlen, ?_⟩
  have key : ∀ u v, u < v → v < n →
      sol.getD u 0 ≠ sol.getD v 0 ∧
        |(sol.getD u 0 : Int) - sol.getD v 0| ≠ |(u : Int) - (v : Int)| := by
    intro u v huv hv
    have hp := hpair u v huv (by omega)
    unfold NoAttack at hp
    refine ⟨hp.1, ?_⟩
    rw [Ne, abs_sub_eq_abs_sub_iff]
    omega
  intro i j hi hj hij
  rcases Nat.lt_or_gt_of_ne hij with h | h
  · exact key i j h hj
  · have hk := key j i h hi
    refine ⟨hk.1.symm, ?_⟩
    rw [abs_sub_comm ((sol.getD i 0 : Int)) _, abs_sub_comm ((i : Int)) _]
    exact hk.2

/-- Witness for C1: `solve 4` with the constant shuffle `[1, 3, 0, 2]`
returns `[1, 3, 0, 2]`, which the theorem certifies as a valid length-4
configuration. -/
theorem solve_valid_witness :
    ([1, 3, 0, 2] : List Nat).length = 4 ∧ ∀ i j, i < 4 → j < 4 → i ≠ j →
      ([1, 3, 0, 2] : List Nat).getD i 0 ≠ ([1, 3, 0, 2] : List Nat).getD j 0 ∧
        |(([1, 3, 0, 2] : List Nat).getD i 0 : Int) - (([1, 3, 0, 2] : List Nat).getD j 0 : Int)|
          ≠ |(i : Int) - (j : Int)| := by
  have hperm : ∀ qs : List Nat, (([1, 3, 0, 2] : List Nat)).Perm (List.range 4) := by
    intro _
    decide
  exact solve_valid 4 (fun _ => [1, 3, 0, 2]) hperm [1, 3, 0, 2] (by decide)

/-- C2: for `delta` in `{+1, -1}` and an in-range queen `(x, y)`, `propagate`
adds exactly `delta`, exactly once, to every grid cell other than `(x, y)`
that shares the queen's row, column or a diagonal (rays clipped to the grid),
and leaves every grid cell sharing none of these unchanged. -/
theorem propagate_attacked (n : Nat) (board : Board) (x y : Nat) (d : Int)
    (hd : d = 1 ∨ d = -1) (hx : x < n) (hy : y < n) (a c : Nat)
    (ha : a < n) (hc : c < n) (hne : ¬(a = x ∧ c = y)) :
    ((a = x ∨ c = y ∨ a + y = c + x ∨ a + c = x + y) →
        propagate n board x y d a c = board a c + d) ∧
      (¬(a = x ∨ c = y ∨ a + y = c + x ∨ a + c = x + y) →
        propagate n board x y d a c = board a c) := by
  constructor
  · intro hshare
    have ht : touched n x y a c := by
      unfold touched
      omega
    rw [propagate_apply, attackDelta_touched n x y a c d hx hy, if_pos ht]
  · intro hshare
    have ht : ¬ touched n x y a c := by
      unfold touched
      omega
    rw [propagate_apply, attackDelta_touched n x y a c d hx hy, if_neg ht]
    ring

/-- Witness for C2: on a 2 x 2 zero board, adding a queen at `(0, 0)` raises
the diagonal cell `(1, 1)` by exactly `1`. -/
theorem propagate_attacked_witness :
    propagate 2 (make_board 2) 0 0 1 1 1 = make_board 2 1 1 + 1 :=
  (propagate_attacked 2 (make_board 2) 0 0 1 (Or.inl rfl) (by decide) (by decide) 1 1
    (by decide) (by decide) (by decide)).1 (by decide)

/-- C3 counterexample: `propagate` does not leave the queen's own cell
unchanged — on the 1 x 1 zero board, adding the queen at `(0, 0)` changes
that very cell (row `+d` plus column `+d` minus the single `-d` correction
nets `+d`, not `0`). -/
theorem propagate_self_counterexample :
    propagate 1 (make_board 1) 0 0 1 0 0 ≠ make_board 1 0 0 := by decide

/-- C3 amended: for an in-range queen, `propagate` changes the cell `(x, y)`
itself by exactly `d` — the `board[x, y] -= d` line removes only the
row/column double count, so the queen is counted once at its own square. -/
theorem propagate_self_cell (n : Nat) (board : Board) (x y : Nat) (d : Int)
    (hx : x < n) (hy : y < n) :
    propagate n board x y d x y = board x y + d := by
  have ht : touched n x y x y := by
    unfold touched
    omega
  rw [propagate_apply, attackDelta_touched n x y x y d hx hy, if_pos ht]

/-- Witness for the amended C3 at the 1 x 1 board. -/
theorem propagate_self_cell_witness :
    propagate 1 (make_board 1) 0 0 1 0 0 = make_board 1 0 0 + 1 :=
  propagate_self_cell 1 (make_board 1) 0 0 1 (by decide) (by decide)

/-- C4: `propagate` is additive in delta — a `+1` application followed by a
`-1` application at the same coordinates restores every cell; any sequence of
`+1` applications followed by the matching `-1` applications in reverse order
restores the grid cell-for-cell; and `+1` twice followed by `-1` twice equals
never having applied anything. -/
theorem propagate_cancellation (n : Nat) :
    (∀ (b : Board) (x y : Nat), propagate n (propagate n b x y 1) x y (-1) = b) ∧
      (∀ (ops : List (Nat × Nat)) (b : Board), undoAll n ops (applyAll n ops b) = b) ∧
      (∀ (b : Board) (x y : Nat),
        propagate n (propagate n (propagate n (propagate n b x y 1) x y 1) x y (-1)) x y (-1)
          = b) := by
  have hcancel : ∀ (b : Board) (x y : Nat), propagate n (propagate n b x y 1) x y (-1) = b :=
    fun b x y => propagate_propagate_neg n b x y 1
  refine ⟨hcancel, ?_, ?_⟩
  · intro ops
    induction ops with
    | nil =>
      intro b
      rfl
    | cons p rest ih =>
      intro b
      show propagate n (undoAll n rest (applyAll n rest (propagate n b p.1 p.2 1))) p.1 p.2 (-1)
          = b
      rw [ih (propagate n b p.1 p.2 1)]
      exact hcancel b p.1 p.2
  · intro b x y
    rw [hcancel (propagate n b x y 1) x y, hcancel b x y]

/-- C5: every `add_queen` call hands its board back in the state it received
it — each `propagate +1` performed inside the call is undone by the matching
`propagate -1` before control returns, including on the path where the
recursive call found a solution. -/
theorem add_queen_restores_board (n : Nat) (rng : Shuffler) (fuel : Nat)
    (queens : List Nat) (board : Board) :
    (add_queen n rng fuel queens board).2 = board :=
  add_queen_snd n rng fuel queens board

/-- C6: boundary and small-board outcomes of `solve` (for the row orders
`random.shuffle` produces): `solve 0` returns the empty placement, `solve 1`
returns `[0]`, `solve n` returns a solution for `n` in `{4, ..., 8}`, and
`solve 2` and `solve 3` report no solution. -/
theorem solve_small_boards :
    (∀ rng : Shuffler, solve 0 rng = some []) ∧
      (∀ rng : Shuffler, (∀ qs, (rng qs).Perm (List.range 1)) → solve 1 rng = some [0]) ∧
      (∀ n, (n = 4 ∨ n = 5 ∨ n = 6 ∨ n = 7 ∨ n = 8) →
        ∀ rng : Shuffler, (∀ qs, (rng qs).Perm (List.range n)) → (solve n rng).isSome) ∧
      (∀ rng : Shuffler, (∀ qs, (rng qs).Perm (List.range 2)) → solve 2 rng = none) ∧
      (∀ rng : Shuffler, (∀ qs, (rng qs).Perm (List.range 3)) → solve 3 rng = none) := by
  have hnone : ∀ (n : Nat), (∀ qs : List Nat, ¬ StrongValid n qs) →
      ∀ rng : Shuffler, (∀ qs, (rng qs).Perm (List.range n)) → solve n rng = none := by
    intro n hno rng hrng
    cases hs : solve n rng with
    | none => rfl
    | some sol =>
      exfalso
      apply hno sol
      apply add_queen_sound n rng hrng (n + 1) [] (consistent_nil n) sol
      rw [← make_board_eq_threatBoard]
      exact hs
  have hexist : ∀ (n : Nat) (sol : List Nat), StrongValid n sol →
      ∀ rng : Shuffler, (∀ qs, (rng qs).Perm (List.range n)) → (solve n rng).isSome := by
    intro n sol hsol rng hrng
    show ((add_queen n rng (n + 1) [] (make_board n)).1).isSome
    rw [make_board_eq_threatBoard]
    exact add_queen_complete n rng hrng sol hsol (n + 1) [] (by simp) ⟨sol, by simp⟩
  refine ⟨fun rng => rfl, ?_, ?_, hnone 2 no_two_queens, hnone 3 no_three_queens⟩
  · intro rng h
    have hr : rng [] = [0] := by
      have hp := h []
      rw [show List.range 1 = [0] from rfl] at hp
      exact List.perm_singleton.mp hp
    have hfound :
        ((fun y b => add_queen 1 rng 1 ([] ++ [y]) b) 0 (propagate 1 (make_board 1) 0 0 1)).1
          = some [0] := by
      show (add_queen 1 rng (0 + 1) [0] (propagate 1 (make_board 1) 0 0 1)).1 = some [0]
      rw [add_queen_succ, if_pos (show ([0] : List Nat).length = 1 from rfl)]
    show (add_queen 1 rng (1 + 1) [] (make_board 1)).1 = some [0]
    rw [add_queen_succ, if_neg (by simp)]
    show (tryRows 1 0 (fun y b => add_queen 1 rng 1 ([] ++ [y]) b) (rng [])
      (make_board 1)).1 = some [0]
    rw [hr, tryRows_cons_found 1 0 (fun y b => add_queen 1 rng 1 ([] ++ [y]) b) 0 []
      (make_board 1) [0] rfl hfound]
  · intro n hn rng hrng
    rcases hn with rfl | rfl | rfl | rfl | rfl
    · exact hexist 4 [1, 3, 0, 2] (validCheck_sound 4 _ (by decide)) rng hrng
    · exact hexist 5 [0, 2, 4, 1, 3] (validCheck_sound 5 _ (by decide)) rng hrng
    · exact hexist 6 [1, 3, 5, 0, 2, 4] (validCheck_sound 6 _ (by decide)) rng hrng
    · exact hexist 7 [0, 2, 4, 6, 1, 3, 5] (validCheck_sound 7 _ (by decide)) rng hrng
    · exact hexist 8 [0, 4, 7, 5, 2, 6, 1, 3] (validCheck_sound 8 _ (by decide)) rng hrng

/-- Witness for C6 at concrete identity shuffles. -/
theorem solve_small_boards_witness :
    solve 0 (fun _ => List.range 0) = some [] ∧
      solve 1 (fun _ => List.range 1) = some [0] ∧
      (solve 5 (fun _ => List.range 5)).isSome ∧
      solve 2 (fun _ => List.range 2) = none ∧
      solve 3 (fun _ => List.range 3) = none :=
  ⟨solve_small_boards.1 _,
    solve_small_boards.2.1 _ (fun _ => List.Perm.refl _),
    solve_small_boards.2.2.1 5 (Or.inr (Or.inl rfl)) _ (fun _ => List.Perm.refl _),
    solve_small_boards.2.2.2.1 _ (fun _ => List.Perm.refl _),
    solve_small_boards.2.2.2.2 _ (fun _ => List.Perm.refl _)⟩

/-- C7: `add_queen` terminates for every finite `n` and every starting
placement of at most `n` queens: the recursion depth is bounded by the
`n + 1 - queens.length` remaining levels, so the (total) embedding computes
the same result with that fuel as with any larger fuel. -/
theorem add_queen_terminates (n : Nat) (rng : Shuffler) (fuel : Nat) (queens : List Nat)
    (board : Board) (hq : queens.length ≤ n) (hfuel : n + 1 - queens.length ≤ fuel) :
    add_queen n rng fuel queens board
      = add_queen n rng (n + 1 - queens.length) queens board :=
  add_queen_fuel_eq n rng fuel (n + 1 - queens.length) queens board hq hfuel (Nat.le_refl _)

/-- Witness for C7: from the empty placement on a 2-board, fuel 10 and the
sufficient fuel 3 agree. -/
theorem add_queen_terminates_witness :
    add_queen 2 (fun _ => List.range 2) 10 [] (make_board 2)
      = add_queen 2 (fun _ => List.range 2) 3 [] (make_board 2) :=
  add_queen_terminates 2 (fun _ => List.range 2) 10 [] (make_board 2) (by decide) (by decide)

/-- C8: the solver is deterministic once the shuffles are fixed: two runs
whose per-call row orders agree (as they do when the PRNG is seeded
identically — the shuffle is the only nondeterminism) return identical
results. -/
theorem solve_deterministic (n : Nat) (rng1 rng2 : Shuffler)
    (h : ∀ qs, rng1 qs = rng2 qs) : solve n rng1 = solve n rng2 := by
  have heq : rng1 = rng2 := funext h
  rw [heq]

/-- Witness for C8 at `n = 4` with a concrete shuffle family. -/
theorem solve_deterministic_witness :
    solve 4 (fun _ => [1, 3, 0, 2]) = solve 4 (fun _ => [1, 3, 0, 2]) :=
  solve_deterministic 4 _ _ (fun _ => rfl)

/-- C9: a negative size is rejected when the grid is created — before any
search step or grid mutation — with the validation error; `add_queen` is
never reached. -/
theorem solve_checked_negative (n : Int) (hn : n < 0) (rng : Shuffler) :
    solve_checked n rng = Except.error SolveError.invalidInput := by
  unfold solve_checked make_board_checked
  rw [if_pos hn]

/-- Witness for C9 at `n = -1`. -/
theorem solve_checked_negative_witness :
    solve_checked (-1) (fun _ => []) = Except.error SolveError.invalidInput :=
  solve_checked_negative (-1) (by decide) (fun _ => [])

/-- C10: `add_queen` never alters the placement it receives — in this value
semantics every extension is the fresh list `queens ++ [y]`, and any returned
solution is the caller's placement extended by a fresh suffix to length `n`,
not an alias that was later shrunk. -/
theorem add_queen_preserves_queens (n : Nat) (rng : Shuffler) (fuel : Nat)
    (queens : List Nat) (board : Board) (sol : List Nat)
    (h : (add_queen n rng fuel queens board).1 = some sol) :
    (∃ rest, sol = queens ++ rest) ∧ sol.length = n :=
  add_queen_extends n rng fuel queens board sol h

/-- Witness for C10 at `n = 0`, where the empty placement is returned
unchanged. -/
theorem add_queen_preserves_queens_witness :
    (∃ rest, ([] : List Nat) = [] ++ rest) ∧ ([] : List Nat).length = 0 :=
  add_queen_preserves_queens 0 (fun _ => []) 1 [] (make_board 0) [] rfl

end NQueens
